import Mathlib

/-!
Verification of the go-web-crawler pipeline (`handlers/crawl.go`) against its
specification.  Strings are modelled as `List Char`, byte streams as `List Nat`.
Every definition is translated from the Go source; the few places where the
behaviour of a library outside the repository matters (gzip/brotli codecs, the
`net/http` default redirect policy) are modelled from the spec and marked as
such in their doc comments.
-/

namespace Crawler

/-- Boolean prefix test on lists (model of Go's string prefix matching used by
`strings.Index`/`strings.Count`). `pfx sub s` is true iff `sub` is an initial
segment of `s`. -/
def pfx {α : Type} [DecidableEq α] : List α → List α → Bool
  | [], _ => true
  | _ :: _, [] => false
  | a :: as, b :: bs => a = b && pfx as bs

/-- ASCII model of the whitespace set recognised by Go's `strings.TrimSpace`. -/
def isSpc (c : Char) : Bool :=
  c = ' ' || c = '\t' || c = '\n' || c = '\r' || c.toNat = 11 || c.toNat = 12

/-- Model of Go's `strings.TrimSpace`: drop whitespace from both ends. -/
def trimSpace (s : List Char) : List Char :=
  ((s.dropWhile isSpc).reverse.dropWhile isSpc).reverse

/-- ASCII model of Go's `strings.ToLower` on a single character. -/
def toLowerChar (c : Char) : Char :=
  if 65 ≤ c.toNat ∧ c.toNat ≤ 90 then Char.ofNat (c.toNat + 32) else c

/-- ASCII model of Go's `strings.ToLower` on a string. -/
def toLowerL (s : List Char) : List Char := s.map toLowerChar

/-- Model of Go's `strings.Split(s, ",")`: split at every comma.
`splitComma [] = [[]]`, matching Go's `Split("", ",") == [""]`. -/
def splitComma : List Char → List (List Char)
  | [] => [[]]
  | c :: rest =>
    if c = ',' then [] :: splitComma rest
    else
      match splitComma rest with
      | [] => [[c]]
      | h :: t => (c :: h) :: t

/-- Keyword normalisation loop from `crawl.go` lines 106-113: split the raw
form value on commas, lower-case and trim each piece, and append the piece to
the accumulator iff it is non-empty. -/
def parseKeywords (raw : List Char) : List (List Char) :=
  (splitComma raw).foldl
    (fun acc k =>
      let keyword := toLowerL (trimSpace k)
      if keyword = [] then acc else acc ++ [keyword])
    []

/-- Index of the first occurrence of `sub` in `s` (model of Go's
`strings.Index`): scan left to right, report the first position where `sub`
is a prefix of the remaining suffix. -/
def idxOf (s sub : List Char) : Option Nat :=
  match s with
  | [] => if sub = [] then some 0 else none
  | c :: rest =>
    if pfx sub (c :: rest) then some 0
    else (idxOf rest sub).map (· + 1)

/-- The loop of Go's `strings.Count` for a non-empty pattern: repeatedly find
the first occurrence with `strings.Index` and restart just past it.  The fuel
argument only bounds the number of iterations; `s.length + 1` is always
enough because each round consumes at least one character. -/
def goCountLoop : Nat → List Char → List Char → Nat
  | 0, _, _ => 0
  | fuel + 1, s, sub =>
    match idxOf s sub with
    | none => 0
    | some i => 1 + goCountLoop fuel (s.drop (i + sub.length)) sub

/-- Model of Go's `strings.Count(s, sub)`: for the empty pattern the result is
one more than the length of `s`; otherwise the `Index`-based loop counts
non-overlapping occurrences. -/
def goCount (s sub : List Char) : Nat :=
  if sub = [] then s.length + 1 else goCountLoop (s.length + 1) s sub

/-- The spec's own description of counting: scan left to right; on a match
advance past the whole match, otherwise advance one character.  Fueled so the
definition is structural; `scanCount` is only meaningful for
`s.length ≤ fuel`. -/
def scanCount : Nat → List Char → List Char → Nat
  | 0, _, _ => 0
  | _ + 1, [], _ => 0
  | fuel + 1, c :: rest, sub =>
    if pfx sub (c :: rest) then 1 + scanCount fuel (rest.drop (sub.length - 1)) sub
    else scanCount fuel rest sub

/-- Number of non-overlapping occurrences of `sub` in `s`, counted left to
right and advancing past each match fully (the spec's glossary definition). -/
def specCountNO (s sub : List Char) : Nat := scanCount s.length s sub

mutual
/-- A node of the parsed HTML tree produced by `goquery`: either a text node
or an element with a tag name, an `id` attribute and a list of children. -/
inductive Node where
  | text : List Char → Node
  | elem : List Char → List Char → Forest → Node
/-- A sequence of sibling HTML nodes. -/
inductive Forest where
  | nil : Forest
  | cons : Node → Forest → Forest
end

mutual
/-- `goquery`'s `Selection.Text()` on a single node: the concatenation of all
text-node contents in the subtree, in document order. -/
def textOf : Node → List Char
  | .text s => s
  | .elem _ _ cs => textOfForest cs
/-- `textOf` over a sequence of siblings. -/
def textOfForest : Forest → List Char
  | .nil => []
  | .cons n ns => textOf n ++ textOfForest ns
end

mutual
/-- `goquery`'s `doc.Find(t)` with a bare tag-name selector: all elements of
the tree whose tag is `t`, in document (pre-)order. -/
def findAll (t : List Char) : Node → List Node
  | .text _ => []
  | .elem tag id cs =>
    (if tag = t then [Node.elem tag id cs] else []) ++ findAllForest t cs
/-- `findAll` over a sequence of siblings. -/
def findAllForest (t : List Char) : Forest → List Node
  | .nil => []
  | .cons n ns => findAll t n ++ findAllForest t ns
end

mutual
/-- Model of `doc.Html()`: re-serialise the parsed tree. -/
def nodeHtml : Node → List Char
  | .text s => s
  | .elem tag _ cs => '<' :: tag ++ '>' :: nodeHtmlForest cs ++ '<' :: '/' :: tag ++ ['>']
/-- `nodeHtml` over a sequence of siblings. -/
def nodeHtmlForest : Forest → List Char
  | .nil => []
  | .cons n ns => nodeHtml n ++ nodeHtmlForest ns
end

/-- Text extraction from `crawl.go` lines 201-203:
`textContent := doc.Find("body").Text()` — the concatenated text of every
`body` element of the document.  (No content-selection heuristic is applied:
there is no encyclopedia-content, main-content or navigation-removal rule in
the source.) -/
def extractText (doc : Node) : List Char :=
  (findAll ['b', 'o', 'd', 'y'] doc).foldl (fun acc n => acc ++ textOf n) []

/-- A document whose `body` holds a "main encyclopedia content" region
(`<div id="mw-content-text">` with text `a`) followed by a generic
"main content" region (`<main>` with text `b`) — the spec's priority-policy
scenario. -/
def mkDoc (a b : List Char) : Node :=
  .elem ['h','t','m','l'] []
    (.cons
      (.elem ['b','o','d','y'] []
        (.cons (.elem ['d','i','v'] ['m','w','-','c','o','n','t','e','n','t','-','t','e','x','t']
                 (.cons (.text a) .nil))
          (.cons (.elem ['m','a','i','n'] [] (.cons (.text b) .nil)) .nil)))
      .nil)

/-- One scored keyword, mirroring `type Score struct` in `crawl.go`. -/
structure Score where
  keyword : List Char
  count : Nat
deriving DecidableEq, Repr

/-- Scoring loop from `crawl.go` lines 202-215: lower-case the extracted text
once, then record `strings.Count(text, keyword)` for each keyword in order. -/
def scoreText (text : List Char) (ks : List (List Char)) : List Score :=
  let t := toLowerL text
  ks.map fun k => { keyword := k, count := goCount t k }

/-- The two-byte magic header of the gzip framing format. -/
def gzipMagic : List Nat := [31, 139]

/-- Modelled from the spec: Go's `compress/gzip` writer (not part of this
repository) — an invertible framing that prepends the gzip magic header. -/
def gzipCompress (x : List Nat) : List Nat := gzipMagic ++ x

/-- Modelled from the spec: `gzip.NewReader` followed by reading the stream —
fails eagerly (`none`) when the gzip framing (magic header) is invalid,
otherwise yields the original payload. -/
def gunzip (b : List Nat) : Option (List Nat) :=
  if pfx gzipMagic b then some (b.drop 2) else none

/-- The one-byte marker of the modelled Brotli framing. -/
def brMagic : List Nat := [206]

/-- Modelled from the spec: the Brotli decoder (`andybalholm/brotli`, not part
of this repository) — strips the Brotli framing marker; a malformed stream
surfaces as a read error (`none`). -/
def brRead (b : List Nat) : Option (List Nat) :=
  if pfx brMagic b then some (b.drop 1) else none

/-- The `Content-Encoding` switch of `crawl.go` lines 157-176: `gzip` is
decompressed (erroring on bad framing), `br` is routed through the Brotli
reader, `deflate` is passed through unmodified (the HTTP client already
handles it), and any other tag — including the empty one — is passed through
unmodified. -/
def decodeBody (enc : List Char) (body : List Nat) : Option (List Nat) :=
  if enc = ['g','z','i','p'] then gunzip body
  else if enc = ['b','r'] then brRead body
  else if enc = ['d','e','f','l','a','t','e'] then some body
  else some body

/-- The `CheckRedirect` hook installed on the HTTP client in `crawl.go` lines
118-120: it returns `nil` (here `true` = "allow the redirect") for every
redirect, no matter how many requests are already in the `via` chain. -/
def codeCheckRedirect (_via : List Unit) : Bool := true

/-- Modelled from the spec: `net/http`'s default redirect policy (used only
when no `CheckRedirect` hook is installed) refuses to follow a redirect once
10 requests are already in the `via` chain. -/
def defaultCheckRedirect (via : List Unit) : Bool := decide (via.length < 10)

/-- Whether a chain of `n` consecutive redirects is followed to the end under
redirect policy `check`: before hop `k` the policy is consulted with a `via`
list holding the `k` previous requests. -/
def followsChain (check : List Unit → Bool) (n : Nat) : Bool :=
  (List.range n).all fun k => check (List.replicate k ())

/-- The persisted record, mirroring `type Page struct` in `crawl.go`
(`crawlTime` is an abstract instant). -/
structure Page where
  url : List Char
  keywords : List (List Char)
  scores : List Score
  html : List Char
  crawlTime : Nat
deriving DecidableEq

/-- The error taxonomy of the pipeline (one constructor per early-return path
of `CrawlHandler`). -/
inductive CrawlError where
  | validationError
  | requestError
  | networkError
  | httpStatusError (code : Nat)
  | decodeError
  | parseError
  | persistenceError
deriving DecidableEq

/-- Terminal result of one handler invocation: a single reported error, or
the successfully assembled record. -/
inductive Outcome where
  | failure : CrawlError → Outcome
  | success : Page → Outcome
deriving DecidableEq

/-- An HTTP response as seen by the handler: status code, declared
`Content-Encoding`, raw body bytes. -/
structure HttpResponse where
  statusCode : Nat
  contentEncoding : List Char
  body : List Nat
deriving DecidableEq

/-- The environment of one invocation: whether `http.NewRequest` succeeds,
the result of `client.Do` (`none` = network failure), the result of the
`goquery` HTML parse on the decoded bytes (`none` = parse failure), whether
the MongoDB insert succeeds, and the current instant. -/
structure Oracle where
  reqOk : Bool
  net : Option HttpResponse
  parsed : Option Node
  insertOk : Bool
  now : Nat

/-- What one invocation of `CrawlHandler` did: its single reported outcome,
whether `client.Do` was invoked, whether the decode stage was reached, and
the record written to the store (if any). -/
structure RunResult where
  outcome : Outcome
  fetchAttempted : Bool
  decodeReached : Bool
  inserted : Option Page
deriving DecidableEq

/-- The `CrawlHandler` pipeline of `crawl.go` lines 90-253, as a pure function
of the two form values and the environment oracle.  Each early `return` of
the Go source becomes a `failure` result; the stages run in source order:
validate `url`, validate the raw keyword string, normalise keywords, build
the request, execute it, check the status code (`!= 200` fails), decode the
body, parse the HTML, extract and score the body text, assemble the record,
insert it. -/
def runCrawl (url rawKeywords : List Char) (o : Oracle) : RunResult :=
  if url = [] then
    ⟨.failure .validationError, false, false, none⟩
  else if rawKeywords = [] then
    ⟨.failure .validationError, false, false, none⟩
  else
    let keywords := parseKeywords rawKeywords
    if o.reqOk = false then
      ⟨.failure .requestError, false, false, none⟩
    else
      match o.net with
      | none => ⟨.failure .networkError, true, false, none⟩
      | some resp =>
        if resp.statusCode ≠ 200 then
          ⟨.failure (.httpStatusError resp.statusCode), true, false, none⟩
        else
          match decodeBody resp.contentEncoding resp.body with
          | none => ⟨.failure .decodeError, true, true, none⟩
          | some _ =>
            match o.parsed with
            | none => ⟨.failure .parseError, true, true, none⟩
            | some doc =>
              let page : Page :=
                { url := url
                  keywords := keywords
                  scores := scoreText (extractText doc) keywords
                  html := nodeHtml doc
                  crawlTime := o.now }
              if o.insertOk then ⟨.success page, true, true, some page⟩
              else ⟨.failure .persistenceError, true, true, none⟩

/-! ### Helper lemmas -/

theorem pfx_append {α : Type} [DecidableEq α] (l y : List α) : pfx l (l ++ y) = true := by
  induction l with
  | nil => rfl
  | cons a as ih => simp [pfx, ih]

theorem scanCount_congr (sub : List Char) :
    ∀ n fuel fuel' s, s.length ≤ n → s.length ≤ fuel → s.length ≤ fuel' →
      scanCount fuel s sub = scanCount fuel' s sub := by
  intro n
  induction n with
  | zero =>
    intro fuel fuel' s hn _ _
    have hs : s = [] := List.length_eq_zero.mp (Nat.le_zero.mp hn)
    subst hs
    cases fuel <;> cases fuel' <;> rfl
  | succ n ih =>
    intro fuel fuel' s hn hf hf'
    cases s with
    | nil => cases fuel <;> cases fuel' <;> rfl
    | cons c rest =>
      simp only [List.length_cons] at hn hf hf'
      obtain ⟨f, rfl⟩ : ∃ f, fuel = f + 1 := ⟨fuel - 1, by omega⟩
      obtain ⟨f', rfl⟩ : ∃ f', fuel' = f' + 1 := ⟨fuel' - 1, by omega⟩
      simp only [scanCount]
      by_cases hp : pfx sub (c :: rest) = true
      · simp only [hp, if_true]
        have hlen : (rest.drop (sub.length - 1)).length ≤ n := by
          have := List.length_drop (sub.length - 1) rest
          omega
        rw [ih f f' _ hlen (by have := List.length_drop (sub.length - 1) rest; omega)
          (by have := List.length_drop (sub.length - 1) rest; omega)]
      · simp only [hp, if_false]
        exact ih f f' rest (by omega) (by omega) (by omega)

theorem idxOf_none_scan (sub : List Char) :
    ∀ fuel s, idxOf s sub = none → scanCount fuel s sub = 0 := by
  intro fuel
  induction fuel with
  | zero => intro s _; rfl
  | succ f ih =>
    intro s h
    cases s with
    | nil => rfl
    | cons c rest =>
      simp only [idxOf] at h
      by_cases hp : pfx sub (c :: rest) = true
      · simp [hp] at h
      · simp only [hp, if_false, Bool.false_eq_true, Option.map_eq_none] at h
        simp only [scanCount, hp, if_false, Bool.false_eq_true]
        exact ih rest (by simpa using h)

theorem idxOf_none_spec (sub : List Char) (s : List Char) (h : idxOf s sub = none) :
    specCountNO s sub = 0 :=
  idxOf_none_scan sub s.length s h

theorem idxOf_some_ne_nil {s sub : List Char} {i : Nat} (hsub : sub ≠ [])
    (h : idxOf s sub = some i) : s ≠ [] := by
  intro hs
  subst hs
  simp [idxOf, hsub] at h

theorem idxOf_some_spec (sub : List Char) (hsub : sub ≠ []) :
    ∀ i s, idxOf s sub = some i →
      specCountNO s sub = 1 + specCountNO (s.drop (i + sub.length)) sub := by
  intro i
  induction i with
  | zero =>
    intro s h
    cases s with
    | nil => exact absurd rfl (idxOf_some_ne_nil hsub h)
    | cons c rest =>
      simp only [idxOf] at h
      by_cases hp : pfx sub (c :: rest) = true
      · obtain ⟨m, hm⟩ : ∃ m, sub.length = m + 1 := by
          cases sub with
          | nil => exact absurd rfl hsub
          | cons d ds => exact ⟨ds.length, rfl⟩
        simp only [specCountNO, List.length_cons, scanCount, hp, if_true]
        have hdrop : (c :: rest).drop (0 + sub.length) = rest.drop m := by
          rw [Nat.zero_add, hm, List.drop_succ_cons]
        rw [hdrop, hm]
        simp only [Nat.add_sub_cancel]
        congr 1
        exact scanCount_congr sub rest.length rest.length (rest.drop m).length (rest.drop m)
          (by have := List.length_drop m rest; omega)
          (by have := List.length_drop m rest; omega) (le_refl _)
      · simp [hp] at h
  | succ j ih =>
    intro s h
    cases s with
    | nil => exact absurd rfl (idxOf_some_ne_nil hsub h)
    | cons c rest =>
      simp only [idxOf] at h
      by_cases hp : pfx sub (c :: rest) = true
      · simp [hp] at h
      · simp only [hp, if_false, Bool.false_eq_true] at h
        obtain ⟨j', hj', hj⟩ := Option.map_eq_some'.mp h
        have hjj : j' = j := by omega
        rw [hjj] at hj'
        have hrest := ih rest hj'
        have hspec : specCountNO (c :: rest) sub = specCountNO rest sub := by
          simp only [specCountNO, List.length_cons, scanCount, hp, if_false]
          exact scanCount_congr sub (rest.length + 1) rest.length rest.length rest
            (by omega) (le_refl _) (by omega)
        rw [hspec, hrest]
        congr 2
        have : j + 1 + sub.length = (j + sub.length) + 1 := by omega
        rw [this, List.drop_succ_cons]

theorem goCountLoop_eq_spec (sub : List Char) (hsub : sub ≠ []) :
    ∀ fuel s, s.length < fuel → goCountLoop fuel s sub = specCountNO s sub := by
  intro fuel
  induction fuel with
  | zero => intro s h; omega
  | succ f ih =>
    intro s hlen
    cases h : idxOf s sub with
    | none =>
      have h0 : goCountLoop (f + 1) s sub = 0 := by simp [goCountLoop, h]
      rw [h0]
      exact (idxOf_none_spec sub s h).symm
    | some i =>
      have hstep : goCountLoop (f + 1) s sub = 1 + goCountLoop f (s.drop (i + sub.length)) sub := by
        simp [goCountLoop, h]
      rw [hstep]
      have hs : s ≠ [] := idxOf_some_ne_nil hsub h
      have hlen1 : 1 ≤ s.length := by
        cases s with
        | nil => exact absurd rfl hs
        | cons _ _ => simp
      have hsub1 : 1 ≤ sub.length := by
        cases sub with
        | nil => exact absurd rfl hsub
        | cons _ _ => simp
      have hdrop : (s.drop (i + sub.length)).length < f := by
        have := List.length_drop (i + sub.length) s
        omega
      rw [ih (s.drop (i + sub.length)) hdrop]
      exact (idxOf_some_spec sub hsub i s h).symm

theorem goCount_eq_spec {s sub : List Char} (hsub : sub ≠ []) :
    goCount s sub = specCountNO s sub := by
  simp only [goCount, hsub, if_false]
  exact goCountLoop_eq_spec sub hsub (s.length + 1) s (by omega)

theorem isEmpty_false_of_ne {α : Type} {l : List α} (h : l ≠ []) : l.isEmpty = false := by
  cases l with
  | nil => exact absurd rfl h
  | cons _ _ => rfl

theorem keywordFoldl_eq (l : List (List Char)) (acc : List (List Char)) :
    l.foldl
      (fun acc k =>
        let keyword := toLowerL (trimSpace k)
        if keyword = [] then acc else acc ++ [keyword]) acc
      = acc ++ ((l.map fun k => toLowerL (trimSpace k)).filter fun kw => !kw.isEmpty) := by
  induction l generalizing acc with
  | nil => simp
  | cons k rest ih =>
    simp only [List.foldl_cons, List.map_cons, List.filter_cons]
    by_cases h : toLowerL (trimSpace k) = []
    · simp only [h, if_pos rfl]
      rw [ih]
      simp [h]
    · simp only [h, if_neg h]
      rw [ih]
      simp [isEmpty_false_of_ne h, List.append_assoc]

theorem parseKeywords_eq (raw : List Char) :
    parseKeywords raw
      = ((splitComma raw).map fun k => toLowerL (trimSpace k)).filter fun kw => !kw.isEmpty := by
  simpa using keywordFoldl_eq (splitComma raw) []

theorem parseKeywords_mem_ne_nil {raw k : List Char} (h : k ∈ parseKeywords raw) : k ≠ [] := by
  rw [parseKeywords_eq] at h
  have := List.of_mem_filter h
  intro hk
  rw [hk] at this
  simp at this

theorem extractText_mkDoc (a b : List Char) : extractText (mkDoc a b) = a ++ b := by
  have h : extractText (mkDoc a b) = [] ++ ((a ++ []) ++ ((b ++ []) ++ [])) := rfl
  simp at h
  exact h

theorem scoreText_map_keyword (t : List Char) (ks : List (List Char)) :
    (scoreText t ks).map Score.keyword = ks := by
  unfold scoreText
  simp only [List.map_map]
  have h : (Score.keyword ∘ fun k =>
      ({ keyword := k, count := goCount (toLowerL t) k } : Score)) = id := by
    funext k
    rfl
  rw [h, List.map_id]

/-! ### Concrete environments used by counterexamples and witnesses -/

/-- A benign environment: the request builds, the fetch returns HTTP 200 with
an unencoded body, the HTML parse yields a single text node, the store insert
succeeds. -/
def okOracle : Oracle :=
  { reqOk := true
    net := some { statusCode := 200, contentEncoding := [], body := [1] }
    parsed := some (.text ['x'])
    insertOk := true
    now := 0 }

/-- An HTTP 204 No Content response (a 2xx success status that is not 200). -/
def resp204 : HttpResponse := { statusCode := 204, contentEncoding := [], body := [] }

/-- The benign environment, but the server answers 204. -/
def oracle204 : Oracle := { okOracle with net := some resp204 }

/-- An HTTP 404 response. -/
def resp404 : HttpResponse := { statusCode := 404, contentEncoding := [], body := [] }

/-- The benign environment, but the server answers 404. -/
def oracle404 : Oracle := { okOracle with net := some resp404 }

/-- The record produced by a successful crawl of the benign environment with
raw keywords `"go, go"`. -/
def pageW : Page :=
  { url := "u".toList
    keywords := [['g','o'], ['g','o']]
    scores := [⟨['g','o'], 0⟩, ⟨['g','o'], 0⟩]
    html := ['x']
    crawlTime := 0 }

/-! ### C1 — text-selection priority policy -/

/-- C1, counterexample: for a document containing both a "main encyclopedia
content" region (text `enc`) and a generic "main content" region (text `gen`),
extraction does NOT return the encyclopedia region's text: it returns the
whole body text `encgen`. -/
theorem extractText_ignores_encyclopedia_region :
    extractText (mkDoc "enc".toList "gen".toList) = "encgen".toList ∧
      "encgen".toList ≠ "enc".toList := by decide

/-- C1, amended: text extraction applies no content-selection priority at all;
for a document with an encyclopedia-content region holding text `a` followed
by a generic main-content region holding text `b`, it returns the full body
text `a ++ b` — in particular not the encyclopedia region's text alone
whenever `b` is non-empty. -/
theorem extractText_returns_full_body_text (a b : List Char) :
    extractText (mkDoc a b) = a ++ b ∧ (b ≠ [] → extractText (mkDoc a b) ≠ a) := by
  refine ⟨extractText_mkDoc a b, fun hb hc => hb ?_⟩
  rw [extractText_mkDoc] at hc
  have hlen := congrArg List.length hc
  simp at hlen
  exact hlen

/-- C1, witness for the amended theorem at `a = "a"`, `b = "b"`. -/
theorem extractText_returns_full_body_text_witness :
    extractText (mkDoc "a".toList "b".toList) = "a".toList ++ "b".toList ∧
      extractText (mkDoc "a".toList "b".toList) ≠ "a".toList :=
  ⟨(extractText_returns_full_body_text "a".toList "b".toList).1,
   (extractText_returns_full_body_text "a".toList "b".toList).2 (by decide)⟩

/-! ### C2 — validation -/

/-- C2, counterexample: a keywords string consisting of a single space is
non-empty as a raw string, so it passes validation even though it cleans to
the empty keyword list; the pipeline then proceeds to the network request
instead of terminating with a validation error. -/
theorem whitespace_keywords_reach_fetch :
    parseKeywords " ".toList = [] ∧
      (runCrawl "u".toList " ".toList okOracle).fetchAttempted = true ∧
      (runCrawl "u".toList " ".toList okOracle).outcome ≠ .failure .validationError := by
  decide

/-- C2, amended: the crawl terminates with `ValidationError` exactly when the
`url` form value is the empty string or the raw `keywords` form value is the
empty string (and then no fetch is attempted and nothing is persisted); a
keywords string that is non-empty but cleans to the empty list passes
validation. -/
theorem validation_checks_only_raw_emptiness (url raw : List Char) (o : Oracle) :
    ((runCrawl url raw o).outcome = .failure .validationError ↔ (url = [] ∨ raw = []))
    ∧ ((url = [] ∨ raw = []) →
        (runCrawl url raw o).fetchAttempted = false ∧ (runCrawl url raw o).inserted = none) := by
  obtain ⟨reqOk, net, parsed, insertOk, now⟩ := o
  by_cases h1 : url = [] <;> by_cases h2 : raw = [] <;>
    cases reqOk <;> rcases net with _ | resp <;>
    simp [runCrawl, h1, h2] <;>
    first
      | rfl
      | (by_cases hs : resp.statusCode = 200 <;>
          rcases hd : decodeBody resp.contentEncoding resp.body with _ | bs <;>
          rcases parsed with _ | doc <;>
          cases insertOk <;>
          simp [hs, hd])

/-- C2, witness: with an empty `url` the pipeline reports a validation error,
attempts no fetch and persists nothing. -/
theorem validation_checks_only_raw_emptiness_witness :
    (runCrawl [] "k".toList okOracle).fetchAttempted = false ∧
      (runCrawl [] "k".toList okOracle).inserted = none :=
  (validation_checks_only_raw_emptiness [] "k".toList okOracle).2 (Or.inl rfl)

/-! ### C3 — non-overlapping substring counting -/

/-- C3: for a normalised (non-empty, already lower-case) keyword `k`, the
scorer's count for `k` in text `t` is the number of non-overlapping
occurrences of lower-cased `k` in lower-cased `t`, counted left to right and
advancing past each match fully. -/
theorem scorer_counts_nonoverlapping (t k : List Char) (hk : k ≠ [])
    (hlow : toLowerL k = k) :
    scoreText t [k] = [{ keyword := k, count := specCountNO (toLowerL t) (toLowerL k) }] := by
  have h : scoreText t [k] = [{ keyword := k, count := goCount (toLowerL t) k }] := rfl
  rw [h, hlow, goCount_eq_spec hk]

/-- C3, witness: scoring text `"aaa"` with keyword `"aa"` yields the
non-overlapping count, which is 1 (not 2). -/
theorem scorer_counts_nonoverlapping_witness :
    scoreText "aaa".toList ["aa".toList] =
      [{ keyword := "aa".toList,
         count := specCountNO (toLowerL "aaa".toList) (toLowerL "aa".toList) }] ∧
      specCountNO (toLowerL "aaa".toList) (toLowerL "aa".toList) = 1 :=
  ⟨scorer_counts_nonoverlapping "aaa".toList "aa".toList (by decide) (by decide), by decide⟩

/-! ### C4 — one score entry per keyword -/

/-- C4: the scorer returns exactly one (keyword, count) pair per input
keyword, in the same order and with matching keywords, and an empty keyword
list yields an empty score sequence. -/
theorem scorer_one_entry_per_keyword (t : List Char) (ks : List (List Char)) :
    (scoreText t ks).map Score.keyword = ks ∧
      (scoreText t ks).length = ks.length ∧ scoreText t [] = [] := by
  refine ⟨scoreText_map_keyword t ks, ?_, rfl⟩
  simp [scoreText]

/-! ### C5 — transport decoder -/

/-- C5: the transport decoder returns the body unchanged for any tag other
than `gzip` and `br` (so in particular for an absent tag, an unknown tag and
`deflate` — no double-decompression of deflate), and decoding a
gzip-compressed stream with tag `gzip` recovers the original bytes. -/
theorem decoder_passthrough_and_gzip_roundtrip (enc : List Char) (b x : List Nat) :
    (enc ≠ ['g','z','i','p'] → enc ≠ ['b','r'] → decodeBody enc b = some b)
    ∧ decodeBody ['g','z','i','p'] (gzipCompress x) = some x := by
  constructor
  · intro hg hb
    simp only [decodeBody, hg, hb, if_false, if_neg]
    by_cases hd : enc = ['d','e','f','l','a','t','e'] <;> simp [hd]
  · simp [decodeBody, gunzip, gzipCompress, gzipMagic, pfx]

/-- C5, witness at tag `deflate` and at a concrete gzip round trip. -/
theorem decoder_passthrough_and_gzip_roundtrip_witness :
    decodeBody "deflate".toList [1, 2] = some [1, 2] ∧
      decodeBody "gzip".toList (gzipCompress [3]) = some [3] :=
  ⟨(decoder_passthrough_and_gzip_roundtrip "deflate".toList [1, 2] [3]).1
      (by decide) (by decide),
   (decoder_passthrough_and_gzip_roundtrip "gzip".toList [] [3]).2⟩

/-! ### C6 — status-code gate -/

/-- C6, counterexample: a 204 No Content response is a 2xx success status,
yet the pipeline terminates with `HTTPStatusError{204}` and never reaches the
decode stage — the gate is `status == 200`, not "2xx". -/
theorem status_204_fails_despite_2xx :
    (runCrawl "u".toList "k".toList oracle204).outcome
        = .failure (.httpStatusError 204) ∧
      (runCrawl "u".toList "k".toList oracle204).decodeReached = false := by decide

/-- C6, amended: once a response is obtained, the pipeline terminates with
`HTTPStatusError{code}` exactly when the status code differs from 200 (so
also for 2xx codes such as 201 or 204), and the decode stage is reached
exactly when the status code is 200. -/
theorem status_check_is_exactly_200 (url raw : List Char) (o : Oracle)
    (resp : HttpResponse) (h1 : url ≠ []) (h2 : raw ≠ []) (h3 : o.reqOk = true)
    (h4 : o.net = some resp) :
    (((runCrawl url raw o).outcome = .failure (.httpStatusError resp.statusCode)) ↔
        resp.statusCode ≠ 200)
    ∧ ((runCrawl url raw o).decodeReached = true ↔ resp.statusCode = 200) := by
  obtain ⟨reqOk, net, parsed, insertOk, now⟩ := o
  simp only at h3 h4
  subst h3
  subst h4
  by_cases hs : resp.statusCode = 200 <;>
    rcases hd : decodeBody resp.contentEncoding resp.body with _ | bs <;>
    rcases parsed with _ | doc <;> cases insertOk <;>
    simp [runCrawl, h1, h2, hs, hd]

/-- C6, witness: the spec's 404 scenario — the pipeline terminates with
`HTTPStatusError{404}` and the decode stage is not reached. -/
theorem status_check_is_exactly_200_witness :
    (((runCrawl "u".toList "k".toList oracle404).outcome
        = .failure (.httpStatusError 404)) ↔ (404 : Nat) ≠ 200)
    ∧ ((runCrawl "u".toList "k".toList oracle404).decodeReached = true ↔
        (404 : Nat) = 200) :=
  status_check_is_exactly_200 "u".toList "k".toList oracle404 resp404
    (by decide) (by decide) rfl rfl

/-! ### C7 — keyword normalisation and duplicates -/

/-- C7: the stored keyword list is the raw string split on commas with each
entry trimmed and lower-cased and empty entries discarded, in the original
order and without de-duplication (the characterisation is a plain
map-then-filter, which keeps duplicates); every record handed to the store
carries exactly that list, and its scores carry one entry per (possibly
duplicated) keyword. -/
theorem keyword_normalisation (raw url : List Char) (o : Oracle) (p : Page) :
    (parseKeywords raw
        = ((splitComma raw).map fun k => toLowerL (trimSpace k)).filter fun kw => !kw.isEmpty)
    ∧ ((runCrawl url raw o).inserted = some p →
        p.keywords = parseKeywords raw ∧ p.scores.map Score.keyword = parseKeywords raw) := by
  refine ⟨parseKeywords_eq raw, fun h => ?_⟩
  obtain ⟨reqOk, net, parsed, insertOk, now⟩ := o
  by_cases h1 : url = [] <;> by_cases h2 : raw = [] <;>
    cases reqOk <;> rcases net with _ | ⟨code, encTag, body⟩ <;>
    simp [runCrawl, h1, h2] at h <;>
    (by_cases hs : code = 200 <;>
      rcases hd : decodeBody encTag body with _ | bs <;>
      rcases parsed with _ | doc <;> cases insertOk <;>
      simp [hs, hd] at h <;>
      (rw [← h]; exact ⟨rfl, scoreText_map_keyword _ _⟩))

/-- C7, witness: raw keywords `"go, go"` normalise to the duplicate-keeping
list `["go", "go"]`, and the record persisted by a successful run stores that
very list with one score entry per duplicate. -/
theorem keyword_normalisation_witness :
    parseKeywords "go, go".toList = [['g','o'], ['g','o']] ∧
      (runCrawl "u".toList "go, go".toList okOracle).inserted = some pageW ∧
      pageW.keywords = parseKeywords "go, go".toList ∧
      pageW.scores.map Score.keyword = parseKeywords "go, go".toList :=
  ⟨by decide, by decide,
   (keyword_normalisation "go, go".toList "u".toList okOracle pageW).2 (by decide)⟩

/-! ### C8 — failures are terminal and nothing partial is persisted -/

/-- C8: whenever the pipeline reports a failure, nothing is persisted; a
validation or request-building failure happens before any fetch is attempted,
and a network or HTTP-status failure happens after the fetch but before the
decode stage — no later stage runs after the failing one, and the single
`outcome` value is the invocation's one reported result. -/
theorem failure_terminal_no_persist (url raw : List Char) (o : Oracle) :
    (∀ e, (runCrawl url raw o).outcome = .failure e → (runCrawl url raw o).inserted = none)
    ∧ ((runCrawl url raw o).outcome = .failure .validationError ∨
        (runCrawl url raw o).outcome = .failure .requestError →
        (runCrawl url raw o).fetchAttempted = false ∧
          (runCrawl url raw o).decodeReached = false)
    ∧ ((runCrawl url raw o).outcome = .failure .networkError ∨
        (∃ c, (runCrawl url raw o).outcome = .failure (.httpStatusError c)) →
        (runCrawl url raw o).fetchAttempted = true ∧
          (runCrawl url raw o).decodeReached = false) := by
  obtain ⟨reqOk, net, parsed, insertOk, now⟩ := o
  by_cases h1 : url = [] <;> by_cases h2 : raw = [] <;>
    cases reqOk <;> rcases net with _ | ⟨code, encTag, body⟩ <;>
    simp [runCrawl, h1, h2] <;>
    first
      | rfl
      | (by_cases hs : code = 200 <;>
          rcases hd : decodeBody encTag body with _ | bs <;>
          rcases parsed with _ | doc <;>
          cases insertOk <;>
          simp [hs, hd])

/-- C8, witness: a validation failure reports exactly one error, persists
nothing, and attempts neither fetch nor decode. -/
theorem failure_terminal_no_persist_witness :
    (runCrawl [] [] okOracle).inserted = none ∧
      (runCrawl [] [] okOracle).fetchAttempted = false ∧
      (runCrawl [] [] okOracle).decodeReached = false :=
  ⟨(failure_terminal_no_persist [] [] okOracle).1 .validationError (by decide),
   (failure_terminal_no_persist [] [] okOracle).2.1 (Or.inl (by decide))⟩

/-! ### C9 — redirect policy -/

/-- C9, counterexample: the handler's `CheckRedirect` override follows a
15-redirect chain to the end, while the client's default chain-depth
protection stops such a chain — the override does not keep the default
limit. -/
theorem redirect_cap_not_kept :
    followsChain codeCheckRedirect 15 = true ∧
      followsChain defaultCheckRedirect 15 = false := by decide

/-- C9, amended: the client overrides `CheckRedirect` with a hook that allows
every redirect, so redirects are followed transparently but WITHOUT the
default chain-depth protection: chains of any length are followed, while the
default policy refuses chains of more than 10 redirects. -/
theorem redirects_followed_without_limit (n : Nat) (via : List Unit) :
    codeCheckRedirect via = true ∧ followsChain codeCheckRedirect n = true
    ∧ (11 ≤ n → followsChain defaultCheckRedirect n = false) := by
  refine ⟨rfl, ?_, fun hn => ?_⟩
  · simp [followsChain, codeCheckRedirect]
  · have h10 : (10 : Nat) ∈ List.range n := List.mem_range.mpr (by omega)
    rw [Bool.eq_false_iff]
    intro hall
    rw [followsChain, List.all_eq_true] at hall
    have h := hall 10 h10
    simp [defaultCheckRedirect] at h

/-- C9, witness at a 15-redirect chain. -/
theorem redirects_followed_without_limit_witness :
    codeCheckRedirect (List.replicate 12 ()) = true ∧
      followsChain codeCheckRedirect 14 = true ∧
      followsChain defaultCheckRedirect 14 = false :=
  ⟨(redirects_followed_without_limit 14 (List.replicate 12 ())).1,
   (redirects_followed_without_limit 14 (List.replicate 12 ())).2.1,
   (redirects_followed_without_limit 14 (List.replicate 12 ())).2.2 (by omega)⟩

/-! ### C10 — no empty keyword ever reaches the scorer -/

/-- C10: every score produced from a parsed keyword list has a non-empty
keyword, and its count is the genuine non-overlapping occurrence count of
that keyword in the lower-cased text; the empty-pattern hazard is real —
`strings.Count` with an empty pattern would return text length + 1 — but is
never hit because normalisation discards empty entries. -/
theorem scored_keywords_nonempty (raw t : List Char) (s : Score)
    (h : s ∈ scoreText t (parseKeywords raw)) :
    s.keyword ≠ [] ∧ s.count = specCountNO (toLowerL t) s.keyword ∧
      ∀ u : List Char, goCount u [] = u.length + 1 := by
  simp only [scoreText] at h
  rcases List.mem_map.mp h with ⟨k, hkmem, rfl⟩
  refine ⟨parseKeywords_mem_ne_nil hkmem, ?_, fun u => by simp [goCount]⟩
  exact goCount_eq_spec (parseKeywords_mem_ne_nil hkmem)

/-- C10, witness: keyword `"go"` against text `"gogo"` is scored with the
genuine non-overlapping count 2. -/
theorem scored_keywords_nonempty_witness :
    (⟨"go".toList, 2⟩ : Score) ∈ scoreText "gogo".toList (parseKeywords "go".toList) ∧
      "go".toList ≠ [] ∧
      (2 : Nat) = specCountNO (toLowerL "gogo".toList) "go".toList :=
  ⟨by decide,
   (scored_keywords_nonempty "go".toList "gogo".toList ⟨"go".toList, 2⟩ (by decide)).1,
   by
    have h := (scored_keywords_nonempty "go".toList "gogo".toList ⟨"go".toList, 2⟩
      (by decide)).2.1
    simpa using h⟩

end Crawler
